import Mathlib

/-!
Verification development for the artpub repository (src/extract.py, src/artpub.py).

The pipeline in `src/extract.py` is embedded shallowly:

* Python strings are modelled as `List Char` (`Str`), bytes as `List Nat` (`Bytes`).
* Pure helpers (`cleanup_file_name`, `infer_title`, `infer_file_name`,
  `url_to_base_path`) are translated directly from their definitions.
* Python stdlib collaborators (`urllib.parse.urlparse`, `urlunparse`, `unquote`,
  `str.split`, `str.join`, `str.replace`, `str(int)`) are modelled by executable
  functions with the library's documented behaviour on the inputs the program
  produces (see the doc comment on each).
* Network and extraction collaborators (`requests.get`, `newspaper`,
  `magic.Magic.from_buffer`, `mimetypes.guess_extension`) are oracles packed in a
  `World` record; the page-fetch/extraction chain of lines 282-315 is condensed to
  "per URL: a status code and, when 200, an extracted article" since the
  extraction algorithm itself is an external collaborator per the spec.
* `process_articles` (extract.py lines 256-382) is embedded as a state-threading
  function; observable side effects (image fetches, page fetches, logging calls,
  registered names, added book items) are recorded in a `PState`, and an uncaught
  Python exception is modelled as an `err` marker together with the state at the
  moment the exception is raised.  Filesystem effects (`os.makedirs`,
  `os.path.join`, `epub.write_epub`) are outside the embedding; the inferred
  output file name is exposed instead of the joined path.
-/

namespace Artpub

/-- A Python `str` is a sequence of characters. -/
abbrev Str := List Char

/-- Python `bytes`, one `Nat` per byte. -/
abbrev Bytes := List Nat

/-- Python `s.split(sep)` for a single-character separator `sep`: every
occurrence of `sep` starts a new segment, empty segments are kept, and
`"".split(sep) == [""]`. -/
def splitOnC (c : Char) : Str → List Str
  | [] => [[]]
  | a :: rest =>
    let r := splitOnC c rest
    if a = c then [] :: r else (a :: r.headD []) :: r.tail

/-- Python `sep.join(parts)`. -/
def joinWith (sep : Str) : List Str → Str
  | [] => []
  | [x] => x
  | x :: y :: rest => x ++ sep ++ joinWith sep (y :: rest)

/-- Longest prefix on which `p` is false, together with the remainder. -/
def takeUntil (p : Char → Bool) : Str → Str × Str
  | [] => ([], [])
  | a :: rest =>
    if p a then ([], a :: rest)
    else
      let r := takeUntil p rest
      (a :: r.1, r.2)

/-- Python `s.replace(old, new)` for a single-character pattern `old`:
each occurrence of `old` is replaced by the string `new`. -/
def pyReplaceChar (old : Char) (new : Str) (s : Str) : Str :=
  s.flatMap (fun c => if c = old then new else [c])

/-- Value of a hexadecimal digit character, if it is one. -/
def hexVal (c : Char) : Option Nat :=
  if '0' ≤ c ∧ c ≤ '9' then some (c.toNat - 48)
  else if 'a' ≤ c ∧ c ≤ 'f' then some (c.toNat - 87)
  else if 'A' ≤ c ∧ c ≤ 'F' then some (c.toNat - 55)
  else none

/-- Model of Python `urllib.parse.unquote`: each `%XX` with two hex digits is
decoded to the character with that code (single-byte decoding; multi-byte UTF-8
sequences decode to one character per byte here, which no claim depends on),
anything else is copied through unchanged. -/
def unquote : Str → Str
  | [] => []
  | '%' :: h1 :: h2 :: rest =>
    match hexVal h1, hexVal h2 with
    | some a, some b => Char.ofNat (16 * a + b) :: unquote rest
    | _, _ => '%' :: unquote (h1 :: h2 :: rest)
  | c :: rest => c :: unquote rest

/-- Function `cleanup_file_name` (extract.py lines 56-75): percent-decode when a `%` is
present (`file_name.find("%") != -1`), then
`.replace(" ", "_").replace(":", "").replace("/", "").replace("%", "")
.replace("?", "").replace("=", "")`. -/
def cleanup_file_name (file_name : Str) : Str :=
  let fn := if '%' ∈ file_name then unquote file_name else file_name
  pyReplaceChar '=' []
    (pyReplaceChar '?' []
      (pyReplaceChar '%' []
        (pyReplaceChar '/' []
          (pyReplaceChar ':' []
            (pyReplaceChar ' ' ['_'] fn)))))

/-- Decimal digit character, as produced by Python `str(int)`. -/
def digitOfNat : Nat → Char
  | 0 => '0'
  | 1 => '1'
  | 2 => '2'
  | 3 => '3'
  | 4 => '4'
  | 5 => '5'
  | 6 => '6'
  | 7 => '7'
  | 8 => '8'
  | 9 => '9'
  | _ => '*'

/-- Numeric value of a decimal digit character. -/
def digitVal (c : Char) : Nat := c.toNat - 48

/-- Reads a decimal digit string back as a number (left inverse of `pyStr`). -/
def strVal (s : Str) : Nat := s.foldl (fun a c => 10 * a + digitVal c) 0

/-- Fuelled decimal printer; `fuel > n` suffices. -/
def pyStrAux : Nat → Nat → Str
  | 0, _ => []
  | fuel + 1, n =>
    if n < 10 then [digitOfNat n]
    else pyStrAux fuel (n / 10) ++ [digitOfNat (n % 10)]

/-- Model of Python `str(n)` for a natural number `n`: its decimal digits. -/
def pyStr (n : Nat) : Str := pyStrAux (n + 1) n

/-- Lookup in an association-list model of a Python `dict`. -/
def dictFind {κ : Type} {α : Type} [DecidableEq κ] (k : κ) : List (κ × α) → Option α
  | [] => none
  | p :: rest => if p.1 = k then some p.2 else dictFind k rest

/-- Assignment `d[k] = v` on a Python `dict`: overwrite in place if `k` is present
(keeping its position), otherwise append. -/
def dictInsert {κ : Type} {α : Type} [DecidableEq κ] (k : κ) (v : α) :
    List (κ × α) → List (κ × α)
  | [] => [(k, v)]
  | p :: rest => if p.1 = k then (p.1, v) :: rest else p :: dictInsert k v rest

/-- Number of distinct elements of a list. -/
def numDistinct {α : Type} [DecidableEq α] : List α → Nat
  | [] => 0
  | a :: l => (if a ∈ l then 0 else 1) + numDistinct l

/-! Section: URL parsing (model of `urllib.parse`) -/

/-- Result of `urllib.parse.urlparse`.  Path parameters (`;`) are not modelled
(`params` is always empty); no URL handled by the claims carries them. -/
structure ParseResult where
  scheme : Str
  netloc : Str
  path : Str
  params : Str
  query : Str
  fragment : Str
deriving DecidableEq

/-- Characters CPython accepts inside a URL scheme. -/
def schemeChar (c : Char) : Bool :=
  c.isAlpha || c.isDigit || c == '+' || c == '-' || c == '.'

/-- Whether a string starts with an ASCII letter. -/
def headIsAlpha : Str → Bool
  | [] => false
  | c :: _ => c.isAlpha

/-- CPython `urlsplit` scheme extraction: the text before the first `:` is the
scheme when it is non-empty, starts with a letter and uses only scheme
characters; it is lower-cased.  Otherwise no scheme is split off. -/
def splitScheme (s : Str) : Str × Str :=
  let r := takeUntil (fun c => c == ':') s
  if r.2 ≠ [] then
    if r.1 ≠ [] ∧ headIsAlpha r.1 ∧ r.1.all schemeChar then (r.1.map Char.toLower, r.2.tail)
    else ([], s)
  else ([], s)

/-- Split at the first occurrence of `c` (dropping it); identity-with-empty-rest
when `c` does not occur.  (When `takeUntil` stops, the remainder's head is the
first occurrence of `c`, so taking `tail` drops exactly that separator.) -/
def splitAtChar (c : Char) (s : Str) : Str × Str :=
  let r := takeUntil (fun x => x == c) s
  (r.1, r.2.tail)

/-- Model of `urllib.parse.urlparse`: scheme, then `//netloc` up to the next
`/`, `?` or `#`, then the fragment after the first `#`, then the query after
the first `?`. -/
def urlparse (s : Str) : ParseResult :=
  let sr := splitScheme s
  let nr : Str × Str :=
    if ['/', '/'].isPrefixOf sr.2 then
      takeUntil (fun c => c == '/' || c == '?' || c == '#') (sr.2.drop 2)
    else ([], sr.2)
  let fr := splitAtChar '#' nr.2
  let qr := splitAtChar '?' fr.1
  ⟨sr.1, nr.1, qr.1, [], qr.2, fr.2⟩

/-- Model of `urllib.parse.urlunparse` (CPython `urlunsplit`, with the `params`
field merged into the path first). -/
def urlunparse (u : ParseResult) : Str :=
  let url0 := u.path ++ (if u.params ≠ [] then ';' :: u.params else [])
  let url1 :=
    if u.netloc ≠ [] ∨ (url0 ≠ [] ∧ url0.take 2 = ['/', '/']) then
      ['/', '/'] ++ u.netloc ++ (if url0 ≠ [] ∧ url0.take 1 ≠ ['/'] then '/' :: url0 else url0)
    else url0
  let url2 := if u.scheme ≠ [] then u.scheme ++ ':' :: url1 else url1
  let url3 := if u.query ≠ [] then url2 ++ '?' :: u.query else url2
  if u.fragment ≠ [] then url3 ++ '#' :: u.fragment else url3

/-- Function `url_to_base_path` (extract.py lines 125-149): parse, split the path on
`/`, drop the last component when there is more than one, append a trailing
`/`, unparse. -/
def url_to_base_path (url : Str) : Str :=
  let parsed := urlparse url
  let path_components := splitOnC '/' parsed.path
  let base_path :=
    if path_components.length > 1 then joinWith ['/'] path_components.dropLast
    else parsed.path
  urlunparse {parsed with path := base_path ++ ['/']}

/-- The image-URL resolution of extract.py lines 340-341: a reference starting
with `"http"` is used unchanged, anything else becomes
`url_to_base_path(art.url) + "/" + img_url`. -/
def resolveImgUrl (src : Str) (artUrl : Str) : Str :=
  if ("http".toList).isPrefixOf src then src
  else url_to_base_path artUrl ++ '/' :: src

/-! Section: `fetch_image_data` (extract.py lines 28-54) -/

/-- Outcome of one `requests.get` attempt: either a `RequestException`
(connection error / timeout) or a response with a final status and body. -/
inductive AttemptResult
  | exc
  | resp (status : Nat) (content : Bytes)
deriving DecidableEq

/-- The retry loop of `fetch_image_data`: `while attempts < retry_count`,
attempt number `attempts` is issued; `response.raise_for_status()` raises
(caught as `RequestException`) exactly when the status is 4xx or 5xx, in which
case the next attempt runs; otherwise `response.content` is returned; `None`
after the last attempt. -/
def fetchGo (oracle : Nat → AttemptResult) : Nat → Nat → Option Bytes
  | 0, _ => none
  | fuel + 1, attempts =>
    match oracle attempts with
    | .exc => fetchGo oracle fuel (attempts + 1)
    | .resp st content =>
      if 400 ≤ st ∧ st < 600 then fetchGo oracle fuel (attempts + 1) else some content

/-- Function `fetch_image_data(img_url, retry_count, timeout_duration)`: the URL is
fixed, each attempt's network outcome is given by `oracle`; `timeout_duration`
is passed to every `requests.get` call and does not otherwise influence the
result. -/
def fetch_image_data (oracle : Nat → AttemptResult) (retry_count : Nat)
    (timeout_duration : Nat) : Option Bytes :=
  fetchGo oracle retry_count 0

/-! Section: The pipeline (`process_articles`, extract.py lines 256-382) -/

/-- A node of an article's parsed content: opaque non-image markup, or an
`<img>` element carrying an optional `src` attribute (the only attribute the
pipeline reads or writes; `img.attrs = {}` discards the rest, which is why no
other attribute is modelled). -/
inductive Node
  | text (s : Str)
  | img (src : Option Str)
deriving DecidableEq

/-- What the external extraction chain (requests + newspaper + BeautifulSoup
cleaning of lines 286-315) produces for one fetched page: title, language,
authors and the cleaned article body.  Tag removal (`clean_unused_tags`, the
`source` loop) happens inside that chain; the removed tag kinds do not occur in
`Node`. -/
structure ExtractOut where
  title : Str
  meta_lang : Str
  authors : List Str
  html : List Node
deriving DecidableEq

/-- A `newspaper.Article` as used downstream: `art.url` is the URL the article
was constructed from. -/
structure Article where
  title : Str
  url : Str
  meta_lang : Str
  authors : List Str
  html : List Node
deriving DecidableEq

/-- Constructing `newspaper.Article(url)` + download/parse: the article remembers its URL. -/
def toArticle (url : Str) (e : ExtractOut) : Article :=
  ⟨e.title, url, e.meta_lang, e.authors, e.html⟩

/-- The CLI arguments consumed by `process_articles`.  Optional string
arguments default to `None`; `None` and `""` are indistinguishable here because
every use is a truthiness test, so absence is modelled as `[]`. -/
structure Args where
  urls : List Str
  out_dir : Str
  cookies : Str
  epub : Str
  title : Str
  author : Str
deriving DecidableEq

/-- The external collaborators: page status per URL, extraction result per URL
(consulted only for status-200 pages), image bytes per absolute URL (`none`
models `fetch_image_data` returning `None` after exhausting retries),
`magic.Magic(mime=True).from_buffer`, and `mimetypes.guess_extension`. -/
structure World where
  pageStatus : Str → Nat
  extract : Str → ExtractOut
  fetchImg : Str → Option Bytes
  sniffMime : Bytes → Str
  guessExtension : Str → Option Str

/-- Levels of the `logging` calls the pipeline makes. -/
inductive LogLevel
  | debug
  | info
  | warn
deriving DecidableEq

/-- The uncaught Python exceptions the pipeline can raise:
`ValueError` from unpacking a malformed cookie segment (line 270),
`TypeError` from `magic.from_buffer(None)` after a failed image fetch
(line 348) or from concatenating a `None` extension (line 351), and
`IndexError` from `articles[0]` when no article was processed (line 318). -/
inductive RunError
  | cookieValueError
  | imgTypeError
  | indexError
deriving DecidableEq

/-- Observable effects and mutable state of one run: the image-name registry
`image_names`, the book's asset items, the sequence of `fetch_image_data` calls
(by URL, in order), the sequence of page `requests.get` calls, the logging
calls, the `html_names` registry, the deduplicated author list and the added
documents (title, file name, content). -/
structure PState where
  image_names : List (Str × Str)
  assets : List (Str × Str × Bytes)
  fetchTrace : List Str
  pageTrace : List Str
  log : List (LogLevel × Str)
  html_names : List (List Node × Str)
  authors : List Str
  docs : List (Str × Str × List Node)
deriving DecidableEq

/-- Initial state of a run. -/
def initPState : PState := ⟨[], [], [], [], [], [], [], []⟩

/-- Result of a run: final state, the exception that aborted it (if any), the
book title/language set at line 318-319, and the inferred output file name of
line 381. -/
structure RunResult where
  st : PState
  err : Option RunError
  bookTitle : Str
  bookLang : Str
  outFileName : Str
deriving DecidableEq

/-- Function `infer_title` (extract.py lines 78-100). -/
def infer_title (art : Article) (args : Args) : Str :=
  if args.title ≠ [] then args.title
  else if art.title ≠ [] then art.title
  else art.url

/-- Function `infer_file_name` (extract.py lines 103-121): the explicit `--epub` name
wins; otherwise `cleanup_file_name` of the article title (or its URL when the
title is empty) plus `".epub"`. -/
def infer_file_name (art : Article) (args : Args) : Str :=
  if args.epub ≠ [] then args.epub
  else cleanup_file_name (if art.title ≠ [] then art.title else art.url) ++ ".epub".toList

/-- One iteration of the `for img in soup.find_all("img")` loop (extract.py
lines 336-362) on a single node.  Non-image nodes are untouched.  An image
without `src` is logged at debug level and left alone.  Otherwise the reference
is resolved, the registry consulted; on a miss the bytes are fetched
(`fetch_image_data`, recorded in `fetchTrace`), sniffed, the extension guessed,
the local name `"img/image_" + str(len(image_names)) + ext` allocated and
registered, and an `EpubItem` added.  A failed fetch reaches
`magic_mime.from_buffer(None)` (TypeError); a `None` extension reaches
`str + None` (TypeError); both abort the run. -/
def processImg (w : World) (artUrl : Str) (n : Node) (st : PState) :
    Node × PState × Option RunError :=
  match n with
  | .text s => (.text s, st, none)
  | .img none =>
    (.img none,
     {st with log := st.log ++ [(LogLevel.debug, "Image tag without src attribute, skipping".toList)]},
     none)
  | .img (some src) =>
    let img_url := resolveImgUrl src artUrl
    match dictFind img_url st.image_names with
    | some name => (.img (some name), st, none)
    | none =>
      let st1 := {st with fetchTrace := st.fetchTrace ++ [img_url]}
      match w.fetchImg img_url with
      | none => (.img (some src), st1, some RunError.imgTypeError)
      | some data =>
        let content_type := w.sniffMime data
        match w.guessExtension content_type with
        | none => (.img (some src), st1, some RunError.imgTypeError)
        | some ext =>
          let file_name := "img/image_".toList ++ pyStr st1.image_names.length ++ ext
          let st2 := {st1 with
            image_names := st1.image_names ++ [(img_url, file_name)],
            assets := st1.assets ++ [(file_name, content_type, data)]}
          (.img (some file_name), st2, none)

/-- The image loop over a whole document; an exception aborts mid-document. -/
def processImgs (w : World) (artUrl : Str) : List Node → PState → (List Node × PState × Option RunError)
  | [], st => ([], st, none)
  | n :: rest, st =>
    match processImg w artUrl n st with
    | (n', st1, some e) => ([n'], st1, some e)
    | (n', st1, none) =>
      match processImgs w artUrl rest st1 with
      | (ns, st2, e) => (n' :: ns, st2, e)

/-- The author loop (extract.py lines 328-331): append each author not already
present. -/
def addAuthorsLoop : List Str → List Str → List Str
  | [], acc => acc
  | a :: rest, acc =>
    if a ∈ acc then addAuthorsLoop rest acc else addAuthorsLoop rest (acc ++ [a])

/-- The `for art in articles` loop (extract.py lines 327-372): authors, the
image loop, then `html_name = "article_" + str(len(html_names)) + ".html"`,
registration `html_names[html] = html_name` (a plain dict assignment - it
overwrites on a repeated key), and the `EpubHtml` document added to the book. -/
def processArts (w : World) : List Article → PState → (PState × Option RunError)
  | [], st => (st, none)
  | art :: rest, st =>
    let st0 := {st with authors := addAuthorsLoop art.authors st.authors}
    match processImgs w art.url art.html st0 with
    | (_, st1, some e) => (st1, some e)
    | (nodes, st1, none) =>
      let html_name := "article_".toList ++ pyStr st1.html_names.length ++ ".html".toList
      let st2 := {st1 with
        html_names := dictInsert nodes html_name st1.html_names,
        docs := st1.docs ++ [(art.title, html_name, nodes)]}
      processArts w rest st2

/-- The URL loop (extract.py lines 282-315): log at info level, issue the page
fetch (recorded in `pageTrace`), and on status 200 run the extraction chain and
keep its article; any other status falls through silently. -/
def collectArticles (w : World) : List Str → PState → (List Article × PState)
  | [], st => ([], st)
  | url :: rest, st =>
    let st0 := {st with
      pageTrace := st.pageTrace ++ [url],
      log := st.log ++ [(LogLevel.info, "Processing article URL ".toList ++ url)]}
    if w.pageStatus url = 200 then
      let r := collectArticles w rest st0
      (toArticle url (w.extract url) :: r.1, r.2)
    else collectArticles w rest st0

/-- The tuple unpacking `{x: y for x, y in [...]}` of extract.py line 270:
each split segment must have exactly two parts or a `ValueError` is raised. -/
def unpackPairs : List (List Str) → Except Unit (List (Str × Str))
  | [] => .ok []
  | [x, y] :: rest => (unpackPairs rest).map (fun d => (x, y) :: d)
  | _ :: _ => .error ()

/-- Cookie parsing (extract.py lines 269-273):
`[cookie.split("=") for cookie in args.cookies.split(";")]`, unpacked pairwise. -/
def parseCookies (s : Str) : Except Unit (List (Str × Str)) :=
  unpackPairs ((splitOnC ';' s).map (fun seg => splitOnC '=' seg))

/-- Lines 317-382 of extract.py, after the URL loop: `articles[0]` raises
`IndexError` on an empty list (modelled as the `indexError` marker); otherwise
the book metadata is set from the first article, the article loop runs, and the
output name is inferred from `articles[0]`. -/
def finishRun (w : World) (args : Args) (articles : List Article) (st1 : PState) : RunResult :=
  match articles with
  | [] => ⟨st1, some RunError.indexError, [], [], []⟩
  | a0 :: _ =>
    match processArts w articles st1 with
    | (st2, some e) => ⟨st2, some e, infer_title a0 args, a0.meta_lang, []⟩
    | (st2, none) =>
      ⟨st2, none, infer_title a0 args, a0.meta_lang, infer_file_name a0 args⟩

/-- Function `process_articles(args)` (extract.py lines 256-382).  Cookies are parsed
first (aborting with `ValueError` on a malformed segment, before any network
call); `os.makedirs` is a filesystem effect outside the embedding; the URL loop
collects articles; then `finishRun` assembles the book. -/
def process_articles (w : World) (args : Args) : RunResult :=
  match (if args.cookies ≠ [] then parseCookies args.cookies else Except.ok []) with
  | .error _ => ⟨initPState, some RunError.cookieValueError, [], [], []⟩
  | .ok _ =>
    finishRun w args (collectArticles w args.urls initPState).1
      (collectArticles w args.urls initPState).2

/-- The articles a run collects: one per source URL whose page fetch returned
status 200, in input order. -/
def successArticles (w : World) (urls : List Str) : List Article :=
  urls.filterMap (fun u => if w.pageStatus u = 200 then some (toArticle u (w.extract u)) else none)

/-! Section: Decimal printing lemmas -/

theorem digitVal_digitOfNat {d : Nat} (h : d < 10) : digitVal (digitOfNat d) = d := by
  interval_cases d <;> rfl

theorem strVal_append (s : Str) (c : Char) :
    strVal (s ++ [c]) = 10 * strVal s + digitVal c := by
  simp [strVal, List.foldl_append]

theorem strVal_pyStrAux : ∀ fuel n, n < fuel → strVal (pyStrAux fuel n) = n := by
  intro fuel
  induction fuel with
  | zero => intro n h; omega
  | succ fuel ih =>
    intro n h
    by_cases h10 : n < 10
    · simp [pyStrAux, h10, strVal, digitVal_digitOfNat h10]
    · have hdiv : n / 10 < n := Nat.div_lt_self (by omega) (by omega)
      simp only [pyStrAux, if_neg h10]
      rw [strVal_append, ih (n / 10) (by omega), digitVal_digitOfNat (Nat.mod_lt n (by omega))]
      omega

theorem strVal_pyStr (n : Nat) : strVal (pyStr n) = n :=
  strVal_pyStrAux (n + 1) n (Nat.lt_succ_self n)

theorem pyStr_injective {m n : Nat} (h : pyStr m = pyStr n) : m = n := by
  have := strVal_pyStr m
  rw [h, strVal_pyStr] at this
  omega

/-! Section: Sanitization lemmas (claim C8) -/

theorem mem_pyReplaceChar {c old : Char} {new s : Str}
    (h : c ∈ pyReplaceChar old new s) : c ∈ new ∨ (c ∈ s ∧ c ≠ old) := by
  simp only [pyReplaceChar, List.mem_flatMap] at h
  obtain ⟨a, ha, hc⟩ := h
  by_cases hao : a = old
  · subst hao
    rw [if_pos rfl] at hc
    exact Or.inl hc
  · rw [if_neg hao] at hc
    simp only [List.mem_singleton] at hc
    subst hc
    exact Or.inr ⟨ha, hao⟩

/-- The six characters the spec forbids in sanitized file names. -/
def bannedFileChars : Str := [' ', ':', '/', '%', '?', '=']

theorem cleanup_file_name_banned {c : Char} {s : Str}
    (h : c ∈ cleanup_file_name s) : c ∉ bannedFileChars := by
  simp only [cleanup_file_name] at h
  rcases mem_pyReplaceChar h with h' | ⟨h, hne_eq⟩
  · exact absurd h' (List.not_mem_nil c)
  rcases mem_pyReplaceChar h with h' | ⟨h, hne_q⟩
  · exact absurd h' (List.not_mem_nil c)
  rcases mem_pyReplaceChar h with h' | ⟨h, hne_pct⟩
  · exact absurd h' (List.not_mem_nil c)
  rcases mem_pyReplaceChar h with h' | ⟨h, hne_sl⟩
  · exact absurd h' (List.not_mem_nil c)
  rcases mem_pyReplaceChar h with h' | ⟨h, hne_col⟩
  · exact absurd h' (List.not_mem_nil c)
  rcases mem_pyReplaceChar h with h' | ⟨_, hne_sp⟩
  · simp only [List.mem_singleton] at h'
    subst h'
    decide
  · intro hmem
    simp only [bannedFileChars, List.mem_cons, List.mem_singleton] at hmem
    rcases hmem with rfl | rfl | rfl | rfl | rfl | rfl | h0
    · exact hne_sp rfl
    · exact hne_col rfl
    · exact hne_sl rfl
    · exact hne_pct rfl
    · exact hne_q rfl
    · exact hne_eq rfl
    · exact absurd h0 (List.not_mem_nil c)

/-- C8: for every input string, `cleanup_file_name` returns a string containing
none of the characters space, `:`, `/`, `%`, `?`, `=` - including inputs whose
percent-encoded sequences are first decoded by `unquote`. -/
theorem c8_cleanup_file_name_no_banned (s : Str) :
    (cleanup_file_name s).all (fun c => decide (c ∉ bannedFileChars)) = true := by
  rw [List.all_eq_true]
  intro c hc
  exact decide_eq_true_iff.mpr (cleanup_file_name_banned hc)

/-! Section: Cookie parsing lemmas (claim C10) -/

theorem splitOnC_ne_nil (c : Char) (s : Str) : splitOnC c s ≠ [] := by
  cases s with
  | nil => simp [splitOnC]
  | cons a rest =>
    simp only [splitOnC]
    by_cases hac : a = c <;> simp [hac]

theorem length_splitOnC (c : Char) (s : Str) :
    (splitOnC c s).length = s.count c + 1 := by
  induction s with
  | nil => rfl
  | cons a rest ih =>
    simp only [splitOnC]
    obtain ⟨hd, tl, h⟩ : ∃ hd tl, splitOnC c rest = hd :: tl := by
      cases hsp : splitOnC c rest with
      | nil => exact absurd hsp (splitOnC_ne_nil c rest)
      | cons hd tl => exact ⟨hd, tl, rfl⟩
    rw [h] at ih ⊢
    simp only [List.length_cons] at ih
    by_cases hac : a = c
    · subst hac
      rw [if_pos rfl]
      simp only [List.length_cons]
      have hcount : List.count a (a :: rest) = List.count a rest + 1 := by
        simp [List.count_cons]
      omega
    · rw [if_neg hac]
      simp only [List.headD, List.tail, List.length_cons]
      have hcount : List.count c (a :: rest) = List.count c rest := by
        simp [List.count_cons, Ne.symm hac]
      omega

theorem unpackPairs_error_of_bad :
    ∀ ps : List (List Str), (∃ p ∈ ps, p.length ≠ 2) → unpackPairs ps = .error () := by
  intro ps
  induction ps with
  | nil => rintro ⟨p, hp, _⟩; exact absurd hp (List.not_mem_nil p)
  | cons p rest ih =>
    rintro ⟨q, hq, hql⟩
    match p with
    | [x, y] =>
      rcases List.mem_cons.mp hq with rfl | hq'
      · simp at hql
      · simp only [unpackPairs, ih ⟨q, hq', hql⟩, Except.map]
    | [] => rfl
    | [x] => rfl
    | x :: y :: z :: t => rfl

theorem parseCookies_error {s : Str}
    (h : ∃ seg ∈ splitOnC ';' s, seg.count '=' ≠ 1) :
    parseCookies s = .error () := by
  apply unpackPairs_error_of_bad
  obtain ⟨seg, hs, hc⟩ := h
  refine ⟨splitOnC '=' seg, List.mem_map_of_mem _ hs, ?_⟩
  rw [length_splitOnC]
  omega

/-- C10: for every non-empty cookie string with some `;`-segment whose number
of `=` characters differs from exactly one, cookie parsing raises an uncaught
unpacking `ValueError` and the run aborts before any page or image URL is
fetched. -/
theorem c10_cookie_unpack_aborts (w : World) (args : Args)
    (hne : args.cookies ≠ [])
    (hbad : ∃ seg ∈ splitOnC ';' args.cookies, seg.count '=' ≠ 1) :
    (process_articles w args).err = some RunError.cookieValueError ∧
    (process_articles w args).st.fetchTrace = [] ∧
    (process_articles w args).st.pageTrace = [] := by
  have hpc := parseCookies_error hbad
  simp [process_articles, hne, hpc, initPState]

/-- Witness for C10 at the cookie string `"ab"` (no `=` in its only segment):
the hypotheses hold and the run aborts before fetching anything. -/
def cw10 : World :=
  ⟨fun _ => 200, fun _ => ⟨[], [], [], []⟩, fun _ => some [], fun _ => [], fun _ => some []⟩

def ca10 : Args := ⟨[("http://a".toList)], [], "ab".toList, [], [], []⟩

/-! Section: Dictionary and counting lemmas -/

theorem dictFind_singleton {κ α : Type} [DecidableEq κ] (k : κ) (v : α) :
    dictFind k [(k, v)] = some v := by
  simp [dictFind]

theorem dictFind_append_some {κ α : Type} [DecidableEq κ] {k : κ} {v : α}
    {d1 d2 : List (κ × α)} (h : dictFind k d1 = some v) :
    dictFind k (d1 ++ d2) = some v := by
  induction d1 with
  | nil => simp [dictFind] at h
  | cons p rest ih =>
    simp only [dictFind, List.cons_append] at h ⊢
    by_cases hp : p.1 = k
    · rwa [if_pos hp] at h ⊢
    · rw [if_neg hp] at h ⊢
      exact ih h

theorem dictFind_append_none {κ α : Type} [DecidableEq κ] {k : κ}
    {d1 d2 : List (κ × α)} (h : dictFind k d1 = none) :
    dictFind k (d1 ++ d2) = dictFind k d2 := by
  induction d1 with
  | nil => simp
  | cons p rest ih =>
    simp only [dictFind, List.cons_append] at h ⊢
    by_cases hp : p.1 = k
    · rw [if_pos hp] at h
      exact absurd h (by simp)
    · rw [if_neg hp] at h ⊢
      exact ih h

theorem dictFind_eq_none_iff {κ α : Type} [DecidableEq κ] {k : κ} {d : List (κ × α)} :
    dictFind k d = none ↔ k ∉ d.map Prod.fst := by
  induction d with
  | nil => simp [dictFind]
  | cons p rest ih =>
    simp only [dictFind, List.map_cons, List.mem_cons]
    by_cases hp : p.1 = k
    · simp [hp]
    · simp only [if_neg hp, ih]
      constructor
      · intro hnone hor
        rcases hor with h1 | h2
        · exact hp h1.symm
        · exact hnone h2
      · intro hnot hmem
        exact hnot (Or.inr hmem)

theorem keys_nodup_append {names : List (Str × Str)} {url nm : Str}
    (h : (names.map Prod.fst).Nodup) (hfresh : dictFind url names = none) :
    ((names ++ [(url, nm)]).map Prod.fst).Nodup := by
  rw [List.map_append]
  rw [List.nodup_append]
  refine ⟨h, List.nodup_singleton url, ?_⟩
  intro a ha hb
  simp only [List.map_cons, List.map_nil, List.mem_singleton] at hb
  subst hb
  exact dictFind_eq_none_iff.mp hfresh ha

theorem length_dictInsert {κ α : Type} [DecidableEq κ] (k : κ) (v : α) (d : List (κ × α)) :
    (dictInsert k v d).length = if k ∈ d.map Prod.fst then d.length else d.length + 1 := by
  induction d with
  | nil => simp [dictInsert]
  | cons p rest ih =>
    simp only [dictInsert, List.map_cons, List.mem_cons]
    by_cases hp : p.1 = k
    · simp [hp]
    · rw [if_neg hp]
      simp only [List.length_cons, ih]
      have hne : ¬k = p.1 := fun hk => hp hk.symm
      by_cases hk : k ∈ rest.map Prod.fst
      · simp [hk, hne]
      · simp [hk, hne]

theorem mem_keys_dictInsert {κ α : Type} [DecidableEq κ] {k' k : κ} {v : α}
    {d : List (κ × α)} :
    k' ∈ (dictInsert k v d).map Prod.fst ↔ k' = k ∨ k' ∈ d.map Prod.fst := by
  induction d with
  | nil => simp [dictInsert]
  | cons p rest ih =>
    simp only [dictInsert]
    by_cases hp : p.1 = k
    · subst hp
      rw [if_pos rfl]
      simp only [List.map_cons, List.mem_cons]
      tauto
    · rw [if_neg hp]
      simp only [List.map_cons, List.mem_cons, ih]
      tauto

theorem numDistinct_append_single {α : Type} [DecidableEq α] (l : List α) (m : α) :
    numDistinct (l ++ [m]) = numDistinct l + (if m ∈ l then 0 else 1) := by
  induction l with
  | nil => simp [numDistinct]
  | cons a rest ih =>
    show (if a ∈ rest ++ [m] then 0 else 1) + numDistinct (rest ++ [m])
        = ((if a ∈ rest then 0 else 1) + numDistinct rest) + (if m ∈ a :: rest then 0 else 1)
    rw [ih]
    simp only [List.mem_append, List.mem_singleton, List.mem_cons]
    by_cases ham : a = m
    · subst ham
      by_cases har : a ∈ rest <;> simp_all <;> try omega
    · have hma : ¬m = a := fun hm => ham hm.symm
      by_cases har : a ∈ rest <;> by_cases hmr : m ∈ rest <;> simp_all <;> try omega

theorem numDistinct_of_nodup {α : Type} [DecidableEq α] {l : List α} (h : l.Nodup) :
    numDistinct l = l.length := by
  induction l with
  | nil => rfl
  | cons a rest ih =>
    rw [List.nodup_cons] at h
    simp [numDistinct, h.1, ih h.2]
    omega

/-! Section: Image-registry invariants (claim C1) -/

/-- The registry names are gapless and strictly increasing: the entry at
position `i` (0-based first-encounter order) carries the local name
`"img/image_" ++ i ++ extension`. -/
def NamesShape (names : List (Str × Str)) : Prop :=
  ∀ i p, names.get? i = some p →
    ∃ e, p.2 = "img/image_".toList ++ pyStr i ++ e

theorem namesShape_append {names : List (Str × Str)} {url ext : Str}
    (h : NamesShape names) :
    NamesShape (names ++ [(url, "img/image_".toList ++ pyStr names.length ++ ext)]) := by
  intro i p hp
  by_cases hi : i < names.length
  · rw [List.get?_append hi] at hp
    exact h i p hp
  · rw [List.get?_append_right (by omega)] at hp
    have hz : i - names.length = 0 := by
      cases hl : i - names.length with
      | zero => rfl
      | succ j =>
        rw [hl] at hp
        simp at hp
    rw [hz] at hp
    simp only [List.get?_cons_zero, Option.some.injEq] at hp
    subst hp
    have hieq : i = names.length := by omega
    subst hieq
    exact ⟨ext, rfl⟩

theorem processImg_spec {w : World} {u : Str} {n : Node} {st : PState} {n' : Node}
    {st' : PState} (h : processImg w u n st = (n', st', none)) :
    st'.html_names = st.html_names ∧ st'.docs = st.docs ∧ st'.authors = st.authors ∧
    st'.pageTrace = st.pageTrace ∧
    (∀ e ∈ st'.log, e ∈ st.log ∨ e.1 = LogLevel.debug) ∧
    ((st'.image_names = st.image_names ∧ st'.fetchTrace = st.fetchTrace) ∨
      (∃ url ext, dictFind url st.image_names = none ∧
        st'.image_names = st.image_names
          ++ [(url, "img/image_".toList ++ pyStr st.image_names.length ++ ext)] ∧
        st'.fetchTrace = st.fetchTrace ++ [url])) ∧
    (∀ s, n = Node.img (some s) →
      ∃ nm, n' = Node.img (some nm) ∧
        dictFind (resolveImgUrl s u) st'.image_names = some nm) := by
  cases n with
  | text s =>
    simp only [processImg] at h
    injection h with h1 h23
    injection h23 with h2 h3
    subst h1
    subst h2
    exact ⟨rfl, rfl, rfl, rfl, fun e he => Or.inl he, Or.inl ⟨rfl, rfl⟩,
      fun s' hs => Node.noConfusion hs⟩
  | img osrc =>
    cases osrc with
    | none =>
      simp only [processImg] at h
      injection h with h1 h23
      injection h23 with h2 h3
      subst h1
      subst h2
      refine ⟨rfl, rfl, rfl, rfl, ?_, Or.inl ⟨rfl, rfl⟩, ?_⟩
      · intro e he
        rcases List.mem_append.mp he with he' | he'
        · exact Or.inl he'
        · simp only [List.mem_singleton] at he'
          subst he'
          exact Or.inr rfl
      · intro s' hs
        exact absurd hs (by simp)
    | some src =>
      simp only [processImg] at h
      split at h
      next name heq =>
        injection h with h1 h23
        injection h23 with h2 h3
        subst h1
        subst h2
        refine ⟨rfl, rfl, rfl, rfl, fun e he => Or.inl he, Or.inl ⟨rfl, rfl⟩, ?_⟩
        intro s' hs
        have hsrc : src = s' := by
          injection hs with hv
          injection hv
        subst hsrc
        exact ⟨name, rfl, heq⟩
      next heq =>
        split at h
        next => simp at h
        next data hdata =>
          split at h
          next => simp at h
          next ext hext =>
            injection h with h1 h23
            injection h23 with h2 h3
            subst h1
            subst h2
            refine ⟨rfl, rfl, rfl, rfl, fun e he => Or.inl he,
              Or.inr ⟨resolveImgUrl src u, ext, heq, rfl, rfl⟩, ?_⟩
            intro s' hs
            have hsrc : src = s' := by
              injection hs with hv
              injection hv
            subst hsrc
            refine ⟨_, rfl, ?_⟩
            rw [dictFind_append_none heq, dictFind_singleton]

/-- The run-level registry invariant: the fetch trace is exactly the registry's
key sequence (one fetch per registration, in first-encounter order), keys are
pairwise distinct, and local names carry gapless increasing indices. -/
def RegInv (st : PState) : Prop :=
  st.fetchTrace = st.image_names.map Prod.fst ∧
  (st.image_names.map Prod.fst).Nodup ∧ NamesShape st.image_names

theorem regInv_step {st st' : PState}
    (hd : (st'.image_names = st.image_names ∧ st'.fetchTrace = st.fetchTrace) ∨
      (∃ url ext, dictFind url st.image_names = none ∧
        st'.image_names = st.image_names
          ++ [(url, "img/image_".toList ++ pyStr st.image_names.length ++ ext)] ∧
        st'.fetchTrace = st.fetchTrace ++ [url]))
    (h : RegInv st) : RegInv st' := by
  obtain ⟨htr, hnd, hsh⟩ := h
  rcases hd with ⟨h1, h2⟩ | ⟨url, ext, hfresh, h1, h2⟩
  · refine ⟨?_, ?_, ?_⟩
    · rw [h2, h1]
      exact htr
    · rw [h1]
      exact hnd
    · rw [h1]
      exact hsh
  · refine ⟨?_, ?_, ?_⟩
    · rw [h1, h2, htr, List.map_append]
      rfl
    · rw [h1]
      exact keys_nodup_append hnd hfresh
    · rw [h1]
      exact namesShape_append hsh

theorem processImgs_spec {w : World} {u : Str} :
    ∀ {nodes : List Node} {st : PState} {ns : List Node} {st' : PState},
      processImgs w u nodes st = (ns, st', none) →
      st'.html_names = st.html_names ∧ st'.docs = st.docs ∧ st'.authors = st.authors ∧
      st'.pageTrace = st.pageTrace ∧
      (∀ e ∈ st'.log, e ∈ st.log ∨ e.1 = LogLevel.debug) ∧
      (∃ Δ : List (Str × Str), st'.image_names = st.image_names ++ Δ ∧
        st'.fetchTrace = st.fetchTrace ++ Δ.map Prod.fst) ∧
      (RegInv st → RegInv st') ∧
      ns.length = nodes.length ∧
      (∀ j s, nodes.get? j = some (Node.img (some s)) →
        ∃ nm, ns.get? j = some (Node.img (some nm)) ∧
          dictFind (resolveImgUrl s u) st'.image_names = some nm) := by
  intro nodes
  induction nodes with
  | nil =>
    intro st ns st' h
    simp only [processImgs] at h
    injection h with h1 h23
    injection h23 with h2 h3
    subst h1
    subst h2
    refine ⟨rfl, rfl, rfl, rfl, fun e he => Or.inl he, ⟨[], by simp, by simp⟩, id, rfl, ?_⟩
    intro j s hj
    simp at hj
  | cons n rest ih =>
    intro st ns st' h
    simp only [processImgs] at h
    split at h
    next n1 st1 e heq => simp at h
    next n1 st1 heq =>
      cases hrec : processImgs w u rest st1 with
      | mk ns2 q =>
        cases q with
        | mk st2 e2 =>
        rw [hrec] at h
        dsimp only at h
        injection h with h1 h23
        injection h23 with h2 h3
        subst h1
        subst h2
        subst h3
        obtain ⟨ih1, ih2, ih3, ih4, ihlog, ⟨Δ2, ihΔ1, ihΔ2⟩, ihreg, ihlen, ihrel⟩ := ih hrec
        obtain ⟨p1, p2, p3, p4, plog, pdisj, prel⟩ := processImg_spec heq
        refine ⟨ih1.trans p1, ih2.trans p2, ih3.trans p3, ih4.trans p4, ?_, ?_, ?_, ?_, ?_⟩
        · intro e he
          rcases ihlog e he with he' | he'
          · exact plog e he'
          · exact Or.inr he'
        · rcases pdisj with ⟨q1, q2⟩ | ⟨url, ext, hfresh, q1, q2⟩
          · exact ⟨Δ2, by rw [ihΔ1, q1], by rw [ihΔ2, q2]⟩
          · refine ⟨(url, "img/image_".toList ++ pyStr st.image_names.length ++ ext) :: Δ2,
              ?_, ?_⟩
            · rw [ihΔ1, q1]
              simp
            · rw [ihΔ2, q2]
              simp
        · intro hreg
          exact ihreg (regInv_step pdisj hreg)
        · simp [ihlen]
        · intro j s hj
          cases j with
          | zero =>
            simp only [List.get?_cons_zero, Option.some.injEq] at hj
            obtain ⟨nm, hnm, hfind⟩ := prel s hj
            subst hnm
            exact ⟨nm, by simp, by rw [ihΔ1]; exact dictFind_append_some hfind⟩
          | succ j =>
            simp only [List.get?_cons_succ] at hj
            obtain ⟨nm, hnm, hfind⟩ := ihrel j s hj
            exact ⟨nm, by simpa using hnm, hfind⟩

theorem processArts_spec {w : World} :
    ∀ {arts : List Article} {st st' : PState},
      processArts w arts st = (st', none) →
      st'.pageTrace = st.pageTrace ∧
      (∀ e ∈ st'.log, e ∈ st.log ∨ e.1 = LogLevel.debug) ∧
      (∃ Δ : List (Str × Str), st'.image_names = st.image_names ++ Δ ∧
        st'.fetchTrace = st.fetchTrace ++ Δ.map Prod.fst) ∧
      (RegInv st → RegInv st') ∧
      st'.docs.length = st.docs.length + arts.length ∧
      (∀ i d, st.docs.get? i = some d → st'.docs.get? i = some d) ∧
      (∀ i a, arts.get? i = some a →
        ∃ d, st'.docs.get? (st.docs.length + i) = some d ∧ d.1 = a.title ∧
          d.2.2.length = a.html.length ∧
          (∀ j s, a.html.get? j = some (Node.img (some s)) →
            ∃ nm, d.2.2.get? j = some (Node.img (some nm)) ∧
              dictFind (resolveImgUrl s a.url) st'.image_names = some nm)) := by
  intro arts
  induction arts with
  | nil =>
    intro st st' h
    simp only [processArts] at h
    injection h with h1 h2
    subst h1
    refine ⟨rfl, fun e he => Or.inl he, ⟨[], by simp, by simp⟩, id, by simp,
      fun i d hd => hd, ?_⟩
    intro i a ha
    simp at ha
  | cons art rest ih =>
    intro st st' h
    simp only [processArts] at h
    split at h
    next st1 e heq => simp at h
    next nodes st1 heq =>
      obtain ⟨i1, i2, i3, i4, ilog, ⟨Δ1, iΔ1, iΔ2⟩, ireg, ilen, irel⟩ :=
        processImgs_spec heq
      dsimp only at i1 i2 i3 i4 ilog iΔ1 iΔ2
      obtain ⟨a1, alog, ⟨Δ2, aΔ1, aΔ2⟩, areg, adlen, apres, anew⟩ := ih h
      dsimp only at a1 alog aΔ1 aΔ2 adlen apres anew
      have hdocs1 : st1.docs = st.docs := i2
      refine ⟨?_, ?_, ?_, ?_, ?_, ?_, ?_⟩
      · rw [a1]
        exact i4
      · intro e he
        rcases alog e he with he' | he'
        · exact ilog e he'
        · exact Or.inr he'
      · refine ⟨Δ1 ++ Δ2, ?_, ?_⟩
        · rw [aΔ1, iΔ1]
          simp
        · rw [aΔ2, iΔ2]
          simp
      · intro hreg
        exact areg (ireg hreg)
      · rw [adlen, hdocs1]
        simp only [List.length_append, List.length_cons, List.length_nil, List.length_cons]
        omega
      · intro i d hd
        apply apres
        have hlt : i < st.docs.length := by
          rcases List.get?_eq_some.mp hd with ⟨hb, -⟩
          exact hb
        rw [List.get?_append (by rw [hdocs1]; exact hlt), hdocs1]
        exact hd
      · intro i a ha
        cases i with
        | zero =>
          simp only [List.get?_cons_zero, Option.some.injEq] at ha
          subst ha
          obtain ⟨d, hd, hdEq⟩ : ∃ d,
              st'.docs.get? (st.docs.length + 0) = some d ∧
              d = (art.title,
                "article_".toList ++ pyStr st1.html_names.length ++ ".html".toList,
                nodes) := by
            refine ⟨_, ?_, rfl⟩
            rw [Nat.add_zero]
            apply apres
            rw [hdocs1]
            exact List.get?_concat_length _ _
          subst hdEq
          refine ⟨_, hd, rfl, ilen, ?_⟩
          intro j s hj
          obtain ⟨nm, hnm, hfind⟩ := irel j s hj
          refine ⟨nm, hnm, ?_⟩
          rw [aΔ1]
          exact dictFind_append_some hfind
        | succ i =>
          simp only [List.get?_cons_succ] at ha
          obtain ⟨d, hd, hd1, hd2, hd3⟩ := anew i a ha
          refine ⟨d, ?_, hd1, hd2, hd3⟩
          have : st.docs.length + (i + 1)
              = (st1.docs ++ [(art.title,
                  "article_".toList ++ pyStr st1.html_names.length ++ ".html".toList,
                  nodes)]).length + i := by
            rw [hdocs1]
            simp
            omega
          rw [this]
          exact hd

theorem collectArticles_spec {w : World} :
    ∀ (urls : List Str) (st : PState),
      (collectArticles w urls st).1 = successArticles w urls ∧
      (collectArticles w urls st).2.image_names = st.image_names ∧
      (collectArticles w urls st).2.fetchTrace = st.fetchTrace ∧
      (collectArticles w urls st).2.html_names = st.html_names ∧
      (collectArticles w urls st).2.authors = st.authors ∧
      (collectArticles w urls st).2.docs = st.docs ∧
      (collectArticles w urls st).2.pageTrace = st.pageTrace ++ urls ∧
      (∀ e ∈ (collectArticles w urls st).2.log, e ∈ st.log ∨ e.1 = LogLevel.info) := by
  intro urls
  induction urls with
  | nil =>
    intro st
    refine ⟨by simp [collectArticles, successArticles], rfl, rfl, rfl, rfl, rfl, by simp [collectArticles], ?_⟩
    intro e he
    exact Or.inl he
  | cons url rest ih =>
    intro st
    obtain ⟨e1, e2, e3, e4, e5, e6, e7, e8⟩ :=
      ih {st with pageTrace := st.pageTrace ++ [url], log := st.log ++ [(LogLevel.info, "Processing article URL ".toList ++ url)]}
    by_cases h200 : w.pageStatus url = 200
    · simp only [collectArticles, if_pos h200]
      refine ⟨?_, e2, e3, e4, e5, e6, ?_, ?_⟩
      · rw [e1]
        simp [successArticles, List.filterMap_cons, h200]
      · rw [e7]
        simp
      · intro e he
        rcases e8 e he with he' | he'
        · rcases List.mem_append.mp he' with h1 | h1
          · exact Or.inl h1
          · simp only [List.mem_singleton] at h1
            subst h1
            exact Or.inr rfl
        · exact Or.inr he'
    · simp only [collectArticles, if_neg h200]
      refine ⟨?_, e2, e3, e4, e5, e6, ?_, ?_⟩
      · rw [e1]
        simp [successArticles, List.filterMap_cons, h200]
      · rw [e7]
        simp
      · intro e he
        rcases e8 e he with he' | he'
        · rcases List.mem_append.mp he' with h1 | h1
          · exact Or.inl h1
          · simp only [List.mem_singleton] at h1
            subst h1
            exact Or.inr rfl
        · exact Or.inr he'

/-- Number of occurrences of `u` in a list of strings. -/
def countOcc (u : Str) (l : List Str) : Nat :=
  (l.filter (fun x => decide (x = u))).length

theorem countOcc_eq_zero {u : Str} {l : List Str} (h : u ∉ l) : countOcc u l = 0 := by
  induction l with
  | nil => rfl
  | cons a rest ih =>
    have hne : ¬a = u := fun ha => h (ha ▸ List.mem_cons_self a rest)
    have ih' := ih (fun hm => h (List.mem_cons_of_mem a hm))
    simpa [countOcc, List.filter_cons, hne] using ih'

theorem countOcc_eq_one {u : Str} {l : List Str} (hnd : l.Nodup) (hm : u ∈ l) :
    countOcc u l = 1 := by
  induction l with
  | nil => exact absurd hm (List.not_mem_nil u)
  | cons a rest ih =>
    rw [List.nodup_cons] at hnd
    rcases List.mem_cons.mp hm with rfl | hm'
    · have h0 := countOcc_eq_zero hnd.1
      simp only [countOcc] at h0
      simp [countOcc, List.filter_cons, h0]
    · have hne : ¬a = u := fun ha => hnd.1 (ha ▸ hm')
      have ih' := ih hnd.2 hm'
      simpa [countOcc, List.filter_cons, hne] using ih'

theorem dictFind_some_mem_keys {κ α : Type} [DecidableEq κ] {k : κ} {v : α}
    {d : List (κ × α)} (h : dictFind k d = some v) : k ∈ d.map Prod.fst := by
  by_contra hk
  rw [dictFind_eq_none_iff.mpr hk] at h
  exact Option.noConfusion h

/-- Characterization of a run that did not raise: the cookie parse succeeded,
at least one article was collected, the article loop finished cleanly, and the
result packages its final state with the title/language/file-name derived from
the first collected article. -/
theorem process_articles_run {w : World} {args : Args}
    (h : (process_articles w args).err = none) :
    ∃ a0 rest st1 st2,
      collectArticles w args.urls initPState = (a0 :: rest, st1) ∧
      processArts w (a0 :: rest) st1 = (st2, none) ∧
      process_articles w args
        = ⟨st2, none, infer_title a0 args, a0.meta_lang, infer_file_name a0 args⟩ := by
  unfold process_articles at h ⊢
  split at h
  next heq => simp at h
  next d heq =>
    cases hcol : collectArticles w args.urls initPState with
    | mk arts st1 =>
      rw [hcol] at h
      dsimp only at h ⊢
      unfold finishRun at h ⊢
      cases arts with
      | nil => exact Option.noConfusion h
      | cons a0 rest =>
        cases hpa : processArts w (a0 :: rest) st1 with
        | mk st2 e2 =>
          rw [hpa] at h
          cases e2 with
          | some e => exact Option.noConfusion h
          | none => exact ⟨a0, rest, st1, st2, rfl, hpa, rfl⟩

/-- C1: for every completed run, the asset fetch trace is exactly the
registry's key sequence in first-encounter order and has no duplicates (one
fetch per distinct absolute URL); local names carry gapless strictly increasing
indices; each document position rewrites each `src`-carrying image to the
registry entry of its resolved absolute URL, whose URL occurs exactly once in
the fetch trace; and two references (in the same or different documents)
resolving to the same absolute URL receive the identical local name. -/
theorem c1_dedup_invariant (w : World) (args : Args)
    (h : (process_articles w args).err = none) :
    (process_articles w args).st.fetchTrace
        = (process_articles w args).st.image_names.map Prod.fst ∧
    ((process_articles w args).st.image_names.map Prod.fst).Nodup ∧
    NamesShape (process_articles w args).st.image_names ∧
    (process_articles w args).st.docs.length = (successArticles w args.urls).length ∧
    (∀ i a j s, (successArticles w args.urls).get? i = some a →
      a.html.get? j = some (Node.img (some s)) →
      ∃ d nm, (process_articles w args).st.docs.get? i = some d ∧
        d.2.2.get? j = some (Node.img (some nm)) ∧
        dictFind (resolveImgUrl s a.url) (process_articles w args).st.image_names
          = some nm ∧
        countOcc (resolveImgUrl s a.url) (process_articles w args).st.fetchTrace = 1) ∧
    (∀ i1 a1 j1 s1 i2 a2 j2 s2,
      (successArticles w args.urls).get? i1 = some a1 →
      a1.html.get? j1 = some (Node.img (some s1)) →
      (successArticles w args.urls).get? i2 = some a2 →
      a2.html.get? j2 = some (Node.img (some s2)) →
      resolveImgUrl s1 a1.url = resolveImgUrl s2 a2.url →
      ∀ d1 nm1 d2 nm2,
        (process_articles w args).st.docs.get? i1 = some d1 →
        d1.2.2.get? j1 = some (Node.img (some nm1)) →
        (process_articles w args).st.docs.get? i2 = some d2 →
        d2.2.2.get? j2 = some (Node.img (some nm2)) →
        nm1 = nm2) := by
  obtain ⟨a0, rest, st1, st2, hcol, hpa, hrun⟩ := process_articles_run h
  obtain ⟨c1, c2, c3, c4, c5, c6, c7, c8⟩ := collectArticles_spec args.urls initPState
  rw [hcol] at c1 c2 c3 c4 c5 c6 c7 c8
  dsimp only at c1 c2 c3 c4 c5 c6 c7 c8
  obtain ⟨p1, p2, ⟨Δ, pΔ1, pΔ2⟩, preg, plen, ppres, pnew⟩ := processArts_spec hpa
  have hsucc : successArticles w args.urls = a0 :: rest := c1.symm
  have hreg1 : RegInv st1 := by
    refine ⟨?_, ?_, ?_⟩
    · rw [c3, c2]
      rfl
    · rw [c2]
      exact List.nodup_nil
    · rw [c2]
      intro i p hp
      simp [initPState] at hp
  have hreg2 : RegInv st2 := preg hreg1
  have hst : (process_articles w args).st = st2 := by rw [hrun]
  rw [hst, hsucc]
  obtain ⟨r1, r2, r3⟩ := hreg2
  have hdocs0 : st1.docs = [] := by rw [c6]; rfl
  refine ⟨r1, r2, r3, ?_, ?_, ?_⟩
  · rw [plen, hdocs0]
    simp
  · intro i a j s hi hj
    have hi' : (a0 :: rest).get? i = some a := hi
    obtain ⟨d, hd, hd1, hd2, hd3⟩ := pnew i a hi'
    rw [hdocs0] at hd
    simp only [List.length_nil, Nat.zero_add] at hd
    obtain ⟨nm, hnm, hfind⟩ := hd3 j s hj
    refine ⟨d, nm, hd, hnm, hfind, ?_⟩
    rw [r1]
    exact countOcc_eq_one r2 (dictFind_some_mem_keys hfind)
  · intro i1 a1 j1 s1 i2 a2 j2 s2 hi1 hj1 hi2 hj2 hres d1 nm1 d2 nm2 hd1 hn1 hd2 hn2
    obtain ⟨d1', hd1', _, _, hrel1⟩ := pnew i1 a1 hi1
    obtain ⟨d2', hd2', _, _, hrel2⟩ := pnew i2 a2 hi2
    rw [hdocs0] at hd1' hd2'
    simp only [List.length_nil, Nat.zero_add] at hd1' hd2'
    have he1 : d1' = d1 := by
      rw [hd1'] at hd1
      exact Option.some.inj hd1
    have he2 : d2' = d2 := by
      rw [hd2'] at hd2
      exact Option.some.inj hd2
    subst he1
    subst he2
    obtain ⟨nm1', hnm1', hfind1⟩ := hrel1 j1 s1 hj1
    obtain ⟨nm2', hnm2', hfind2⟩ := hrel2 j2 s2 hj2
    have hq1 : nm1' = nm1 := by
      rw [hnm1'] at hn1
      injection Option.some.inj hn1 with hv
      exact Option.some.inj hv
    have hq2 : nm2' = nm2 := by
      rw [hnm2'] at hn2
      injection Option.some.inj hn2 with hv
      exact Option.some.inj hv
    subst hq1
    subst hq2
    rw [hres] at hfind1
    rw [hfind1] at hfind2
    exact Option.some.inj hfind2

theorem processImg_total {w : World} {u : Str} {n : Node} {st : PState}
    (hfetch : ∀ v, w.fetchImg v ≠ none) (hext : ∀ ct, w.guessExtension ct ≠ none) :
    (processImg w u n st).2.2 = none := by
  cases n with
  | text s => rfl
  | img osrc =>
    cases osrc with
    | none => rfl
    | some src =>
      simp only [processImg]
      split
      · rfl
      · split
        next hfi => exact absurd hfi (hfetch _)
        next data hfi =>
          split
          next hge => exact absurd hge (hext _)
          next ext hge => rfl

theorem processImgs_err_none {w : World} {u : Str}
    (hfetch : ∀ v, w.fetchImg v ≠ none) (hext : ∀ ct, w.guessExtension ct ≠ none) :
    ∀ (nodes : List Node) (st : PState), (processImgs w u nodes st).2.2 = none := by
  intro nodes
  induction nodes with
  | nil => intro st; rfl
  | cons n rest ih =>
    intro st
    simp only [processImgs]
    split
    next n1 st1 e heq =>
      have htot : (processImg w u n st).2.2 = none := processImg_total hfetch hext
      rw [heq] at htot
      exact absurd htot (by simp)
    next n1 st1 heq =>
      cases hrec : processImgs w u rest st1 with
      | mk ns2 q =>
        cases q with
        | mk st2 e2 =>
          have hrest := ih st1
          rw [hrec] at hrest
          exact hrest

theorem processImgs_total {w : World} {u : Str}
    (hfetch : ∀ v, w.fetchImg v ≠ none) (hext : ∀ ct, w.guessExtension ct ≠ none)
    (nodes : List Node) (st : PState) :
    ∃ ns st', processImgs w u nodes st = (ns, st', none) :=
  ⟨(processImgs w u nodes st).1, (processImgs w u nodes st).2.1, by
    rw [← processImgs_err_none hfetch hext nodes st]⟩

theorem processArts_err_none {w : World}
    (hfetch : ∀ v, w.fetchImg v ≠ none) (hext : ∀ ct, w.guessExtension ct ≠ none) :
    ∀ (arts : List Article) (st : PState), (processArts w arts st).2 = none := by
  intro arts
  induction arts with
  | nil => intro st; rfl
  | cons art rest ih =>
    intro st
    simp only [processArts]
    split
    next st1 e heq =>
      have htot := processImgs_err_none (u := art.url) hfetch hext art.html
        {st with authors := addAuthorsLoop art.authors st.authors}
      rw [heq] at htot
      exact absurd htot (by simp)
    next nodes st1 heq => exact ih _

theorem processArts_total {w : World}
    (hfetch : ∀ v, w.fetchImg v ≠ none) (hext : ∀ ct, w.guessExtension ct ≠ none)
    (arts : List Article) (st : PState) :
    ∃ st', processArts w arts st = (st', none) :=
  ⟨(processArts w arts st).1, by
    rw [← processArts_err_none hfetch hext arts st]⟩

theorem process_articles_no_cookies (w : World) (args : Args) (hcook : args.cookies = []) :
    process_articles w args
      = finishRun w args (collectArticles w args.urls initPState).1
          (collectArticles w args.urls initPState).2 := by
  unfold process_articles
  rw [if_neg (by simp [hcook])]

theorem finishRun_ok {w : World} {args : Args} {a0 : Article} {rest : List Article}
    {st1 st2 : PState} (hpa : processArts w (a0 :: rest) st1 = (st2, none)) :
    finishRun w args (a0 :: rest) st1
      = ⟨st2, none, infer_title a0 args, a0.meta_lang, infer_file_name a0 args⟩ := by
  unfold finishRun
  rw [hpa]

/-! Section: Concrete worlds for witnesses, counterexamples and code-bug evaluations -/

/-- A world whose single page yields one article with one image whose fetch
always fails (`fetch_image_data` returns `None` after its retries). -/
def cw2 : World :=
  ⟨fun _ => 200,
   fun _ => ⟨"T".toList, "en".toList, [], [Node.img (some ("http://s/a.png".toList))]⟩,
   fun _ => none, fun _ => [], fun _ => none⟩

def ca2 : Args := ⟨[("http://x".toList)], [], [], [], [], []⟩

/-- C2: evaluating the code at an input whose only asset fetch fails after all
retries: the `None` result is passed straight into
`magic_mime.from_buffer`, raising an uncaught `TypeError`; the element is not
removed, no warning is recorded, and processing does not continue (no document
is produced).  The fetch trace shows the failed fetch was attempted. -/
theorem c2_failed_fetch_crashes :
    (process_articles cw2 ca2).err = some RunError.imgTypeError ∧
    (process_articles cw2 ca2).st.fetchTrace = [("http://s/a.png".toList)] ∧
    (process_articles cw2 ca2).st.docs = [] ∧
    (process_articles cw2 ca2).st.log.filter (fun e => decide (e.1 = LogLevel.warn)) = [] :=
  ⟨by decide, by decide, by decide, by decide⟩

/-- A world where every page fetch returns HTTP 404. -/
def cw3 : World :=
  ⟨fun _ => 404, fun _ => ⟨[], [], [], []⟩, fun _ => none, fun _ => [], fun _ => none⟩

def ca3 : Args := ⟨[("http://x".toList)], [], [], [], [], []⟩

/-- C3: evaluating the code at an input where every source URL is skipped:
the run reaches `articles[0]` (extract.py line 318) with an empty list and
raises an uncaught `IndexError`; no explicit "no articles processed" error
exists anywhere in the code (`RunError` has no such variant because the source
raises none). -/
theorem c3_zero_articles_index_error :
    (process_articles cw3 ca3).err = some RunError.indexError ∧
    (process_articles cw3 ca3).st.pageTrace = ca3.urls :=
  ⟨by decide, by decide⟩

/-- A world with one 404 page and one healthy page with an image-free article. -/
def cw6 : World :=
  ⟨fun u => if u = "http://x".toList then 404 else 200,
   fun _ => ⟨"T".toList, "en".toList, [], [Node.text ['b']]⟩,
   fun _ => some [], fun _ => [], fun _ => some []⟩

def ca6 : Args := ⟨[("http://x".toList), ("http://y".toList)], [], [], [], [], []⟩

/-- C6 counterexample: a run in which the first page fetch returns 404; the
URL is skipped and the run succeeds with the remaining document, but no
warning is recorded anywhere - the claim's "a warning is recorded" is false
(the skip branch of extract.py lines 282-297 logs nothing). -/
theorem c6_counterexample :
    cw6.pageStatus ("http://x".toList) = 404 ∧
    (process_articles cw6 ca6).err = none ∧
    (process_articles cw6 ca6).st.docs.length = 1 ∧
    (process_articles cw6 ca6).st.pageTrace = ca6.urls ∧
    (process_articles cw6 ca6).st.log.filter (fun e => decide (e.1 = LogLevel.warn)) = [] :=
  ⟨by decide, by decide, by decide, by decide, by decide⟩

/-- C6 (amended): a page fetch returning a status other than 200 causes that
URL to be skipped silently - no warning is recorded anywhere in the run -
while every URL is still attempted and every status-200 URL still yields a
document; given a well-formed (absent) cookie string, at least one 200 page,
and asset fetches/extension lookups that succeed, the run completes without
error. -/
theorem c6_silent_skip_amended (w : World) (args : Args)
    (hcook : args.cookies = [])
    (h200 : ∃ u ∈ args.urls, w.pageStatus u = 200)
    (hfetch : ∀ v, w.fetchImg v ≠ none)
    (hext : ∀ ct, w.guessExtension ct ≠ none) :
    (process_articles w args).err = none ∧
    (process_articles w args).st.docs.length = (successArticles w args.urls).length ∧
    (process_articles w args).st.pageTrace = args.urls ∧
    (∀ e ∈ (process_articles w args).st.log, e.1 ≠ LogLevel.warn) := by
  obtain ⟨c1, c2, c3, c4, c5, c6, c7, c8⟩ := collectArticles_spec (w := w) args.urls initPState
  have hne : successArticles w args.urls ≠ [] := by
    intro hnil
    obtain ⟨u, hu, h200u⟩ := h200
    have := List.filterMap_eq_nil.mp hnil u hu
    rw [if_pos h200u] at this
    exact Option.noConfusion this
  obtain ⟨a0, rest, harts⟩ : ∃ a0 rest, successArticles w args.urls = a0 :: rest := by
    cases hs : successArticles w args.urls with
    | nil => exact absurd hs hne
    | cons a0 rest => exact ⟨a0, rest, rfl⟩
  obtain ⟨st2, hpa⟩ := processArts_total hfetch hext (a0 :: rest)
    (collectArticles w args.urls initPState).2
  have harts1 : (collectArticles w args.urls initPState).1 = a0 :: rest := c1.trans harts
  have hrun : process_articles w args
      = ⟨st2, none, infer_title a0 args, a0.meta_lang, infer_file_name a0 args⟩ := by
    rw [process_articles_no_cookies w args hcook, harts1]
    exact finishRun_ok hpa
  obtain ⟨p1, p2, _, _, plen, _, _⟩ := processArts_spec hpa
  rw [hrun]
  refine ⟨rfl, ?_, ?_, ?_⟩
  · rw [plen, c6, harts]
    simp [initPState]
  · rw [p1, c7]
    simp [initPState]
  · intro e he
    rcases p2 e he with he' | he'
    · rcases c8 e he' with he'' | he''
      · simp [initPState] at he''
      · rw [he'']
        decide
    · rw [he']
      decide

theorem c6_witness :
    (ca6.cookies = [] ∧ ∃ u ∈ ca6.urls, cw6.pageStatus u = 200) ∧
    ((process_articles cw6 ca6).err = none ∧
     (process_articles cw6 ca6).st.docs.length = (successArticles cw6 ca6.urls).length ∧
     (process_articles cw6 ca6).st.pageTrace = ca6.urls ∧
     (∀ e ∈ (process_articles cw6 ca6).st.log, e.1 ≠ LogLevel.warn)) :=
  ⟨⟨rfl, ⟨"http://y".toList, by decide, by decide⟩⟩,
   c6_silent_skip_amended cw6 ca6 rfl ⟨"http://y".toList, by decide, by decide⟩
     (fun v h => Option.noConfusion h) (fun ct h => Option.noConfusion h)⟩

/-- A world with two pages; the first article embeds two images, the second
repeats the first's image URL. -/
def cw1 : World :=
  ⟨fun _ => 200,
   fun u =>
     if u = "http://x".toList then
       ⟨"T1".toList, "en".toList, [("Au".toList)],
        [Node.img (some ("http://s/a.png".toList)),
         Node.img (some ("http://s/b.png".toList))]⟩
     else
       ⟨"T2".toList, "en".toList, [],
        [Node.img (some ("http://s/a.png".toList))]⟩,
   fun _ => some [1, 2], fun _ => "image/png".toList, fun _ => some ".png".toList⟩

def ca1 : Args := ⟨[("http://x".toList), ("http://y".toList)], [], [], [], [], []⟩

theorem c1_witness :
    (process_articles cw1 ca1).err = none ∧
    ((process_articles cw1 ca1).st.fetchTrace
        = (process_articles cw1 ca1).st.image_names.map Prod.fst ∧
    ((process_articles cw1 ca1).st.image_names.map Prod.fst).Nodup ∧
    NamesShape (process_articles cw1 ca1).st.image_names ∧
    (process_articles cw1 ca1).st.docs.length = (successArticles cw1 ca1.urls).length ∧
    (∀ i a j s, (successArticles cw1 ca1.urls).get? i = some a →
      a.html.get? j = some (Node.img (some s)) →
      ∃ d nm, (process_articles cw1 ca1).st.docs.get? i = some d ∧
        d.2.2.get? j = some (Node.img (some nm)) ∧
        dictFind (resolveImgUrl s a.url) (process_articles cw1 ca1).st.image_names
          = some nm ∧
        countOcc (resolveImgUrl s a.url) (process_articles cw1 ca1).st.fetchTrace = 1) ∧
    (∀ i1 a1 j1 s1 i2 a2 j2 s2,
      (successArticles cw1 ca1.urls).get? i1 = some a1 →
      a1.html.get? j1 = some (Node.img (some s1)) →
      (successArticles cw1 ca1.urls).get? i2 = some a2 →
      a2.html.get? j2 = some (Node.img (some s2)) →
      resolveImgUrl s1 a1.url = resolveImgUrl s2 a2.url →
      ∀ d1 nm1 d2 nm2,
        (process_articles cw1 ca1).st.docs.get? i1 = some d1 →
        d1.2.2.get? j1 = some (Node.img (some nm1)) →
        (process_articles cw1 ca1).st.docs.get? i2 = some d2 →
        d2.2.2.get? j2 = some (Node.img (some nm2)) →
        nm1 = nm2)) :=
  ⟨by decide, c1_dedup_invariant cw1 ca1 (by decide)⟩

/-! Section: Output-filename claims (claim C5) -/

/-- A world with one healthy page whose extracted title is `"Extracted"`. -/
def cw5 : World :=
  ⟨fun _ => 200, fun _ => ⟨"Extracted".toList, "en".toList, [], []⟩,
   fun _ => some [], fun _ => [], fun _ => some []⟩

/-- Arguments with an explicit title override `"T"` and no explicit filename. -/
def ca5 : Args := ⟨[("http://x".toList)], [], [], [], "T".toList, []⟩

/-- C5 counterexample: with no explicit filename, an explicit title override
`"T"` and extracted title `"Extracted"`, the output file name is
`"Extracted.epub"` - `infer_file_name` reads `art.title` directly and never
consults the override, contradicting the claimed precedence
explicit title override > extracted title. -/
theorem c5_counterexample :
    ca5.epub = [] ∧ ca5.title = "T".toList ∧
    (process_articles cw5 ca5).outFileName = ("Extracted.epub".toList) ∧
    (process_articles cw5 ca5).outFileName
      ≠ cleanup_file_name ca5.title ++ ".epub".toList :=
  ⟨rfl, rfl, by decide, by decide⟩

/-- C5 (amended): the output file name is the explicit filename whenever one
is given; otherwise it derives from the first successfully processed
document's EXTRACTED title, falling back to its source URL - the explicit
title override is not consulted - sanitized by `cleanup_file_name` and
suffixed with `.epub`. -/
theorem c5_filename_amended (w : World) (args : Args)
    (h : (process_articles w args).err = none) :
    ∃ a0 rest, successArticles w args.urls = a0 :: rest ∧
      (process_articles w args).outFileName = infer_file_name a0 args ∧
      infer_file_name a0 args
        = (if args.epub ≠ [] then args.epub
           else cleanup_file_name (if a0.title ≠ [] then a0.title else a0.url)
             ++ ".epub".toList) := by
  obtain ⟨a0, rest, st1, st2, hcol, hpa, hrun⟩ := process_articles_run h
  obtain ⟨c1, -, -, -, -, -, -, -⟩ := collectArticles_spec (w := w) args.urls initPState
  rw [hcol] at c1
  dsimp only at c1
  refine ⟨a0, rest, c1.symm, ?_, rfl⟩
  rw [hrun]

theorem c5_witness :
    (process_articles cw5 ca5).err = none ∧
    (∃ a0 rest, successArticles cw5 ca5.urls = a0 :: rest ∧
      (process_articles cw5 ca5).outFileName = infer_file_name a0 ca5 ∧
      infer_file_name a0 ca5
        = (if ca5.epub ≠ [] then ca5.epub
           else cleanup_file_name (if a0.title ≠ [] then a0.title else a0.url)
             ++ ".epub".toList)) :=
  ⟨by decide, c5_filename_amended cw5 ca5 (by decide)⟩

/-! Section: Document-naming claims (claim C9) -/

theorem numDistinct_take_of_nodup {α : Type} [DecidableEq α] {l : List α} (h : l.Nodup)
    {i : Nat} (hi : i ≤ l.length) : numDistinct (l.take i) = i := by
  rw [numDistinct_of_nodup ((List.take_sublist i l).nodup h), List.length_take]
  omega

/-- The `html_names` registry invariant: its size is the number of distinct
document markups registered so far, its keys are exactly those markups, and
each document's file name embeds the number of distinct markups registered
strictly before it. -/
def HtmlInv (st : PState) : Prop :=
  st.html_names.length = numDistinct (st.docs.map (fun d => d.2.2)) ∧
  (∀ k, k ∈ st.html_names.map Prod.fst ↔ k ∈ st.docs.map (fun d => d.2.2)) ∧
  (∀ i d, st.docs.get? i = some d →
    d.2.1 = "article_".toList
      ++ pyStr (numDistinct ((st.docs.map (fun x => x.2.2)).take i)) ++ ".html".toList)

theorem processArts_names {w : World} :
    ∀ {arts : List Article} {st st' : PState},
      processArts w arts st = (st', none) → HtmlInv st → HtmlInv st' := by
  intro arts
  induction arts with
  | nil =>
    intro st st' h hinv
    simp only [processArts] at h
    injection h with h1 h2
    subst h1
    exact hinv
  | cons art rest ih =>
    intro st st' h hinv
    simp only [processArts] at h
    split at h
    next st1 e heq => simp at h
    next nodes st1 heq =>
      obtain ⟨i1, i2, -, -, -, -, -, -, -⟩ := processImgs_spec heq
      dsimp only at i1 i2
      obtain ⟨v1, v2, v3⟩ := hinv
      refine ih h ⟨?_, ?_, ?_⟩
      · dsimp only
        simp only [List.map_append, List.map_cons, List.map_nil]
        rw [numDistinct_append_single, length_dictInsert, i1, i2, v1]
        by_cases hmem : nodes ∈ st.docs.map (fun d => d.2.2)
        · rw [if_pos ((v2 nodes).mpr hmem), if_pos hmem]
          omega
        · rw [if_neg (fun hk => hmem ((v2 nodes).mp hk)), if_neg hmem]
      · intro k
        dsimp only
        simp only [mem_keys_dictInsert, i1, i2, List.map_append, List.map_cons,
          List.map_nil, List.mem_append, List.mem_singleton, v2 k]
        tauto
      · intro i d hd
        dsimp only at hd ⊢
        have hb : i < st1.docs.length + 1 := by
          rcases List.get?_eq_some.mp hd with ⟨hb', -⟩
          simpa using hb'
        by_cases hlt : i < st1.docs.length
        · rw [List.get?_append hlt] at hd
          rw [i2] at hd
          have hv := v3 i d hd
          rw [hv]
          have htake : ((st1.docs
                ++ [(art.title,
                     "article_".toList ++ pyStr st1.html_names.length ++ ".html".toList,
                     nodes)]).map (fun x => x.2.2)).take i
              = (st.docs.map (fun x => x.2.2)).take i := by
            rw [List.map_append, List.take_append_of_le_length (by rw [List.length_map]; omega), i2]
          rw [htake]
        · have hieq : i = st1.docs.length := by omega
          have hcat := List.get?_concat_length st1.docs
            (art.title, "article_".toList ++ pyStr st1.html_names.length ++ ".html".toList,
             nodes)
          rw [← hieq] at hcat
          rw [hcat] at hd
          have hdEq := Option.some.inj hd
          subst hdEq
          dsimp only
          have htake : ((st1.docs
                ++ [(art.title,
                     "article_".toList ++ pyStr st1.html_names.length ++ ".html".toList,
                     nodes)]).map (fun x => x.2.2)).take i
              = st.docs.map (fun x => x.2.2) := by
            rw [List.map_append, hieq, i2]
            rw [show st.docs.length = (st.docs.map (fun x : Str × Str × List Node => x.2.2)).length from (List.length_map _ _).symm]
            rw [List.take_left]
          rw [htake, ← v1, i1]

/-- A world producing the same markup-free article for every URL. -/
def cw9 : World :=
  ⟨fun _ => 200, fun _ => ⟨"T".toList, "en".toList, [], [Node.text ['b']]⟩,
   fun _ => some [], fun _ => [], fun _ => some []⟩

def ca9 : Args := ⟨[("http://x".toList), ("http://y".toList)], [], [], [], [], []⟩

/-- C9 counterexample: two articles with identical sanitized markup are
assigned the DIFFERENT file names `article_0.html` and `article_1.html` (each
name is recomputed from the current registry size, and the repeated key only
overwrites the dict entry), refuting both "assigned the same file name" and
"pairwise distinct only when all markups are pairwise distinct". -/
theorem c9_counterexample :
    (process_articles cw9 ca9).st.docs.map (fun d => d.2.2)
      = [[Node.text ['b']], [Node.text ['b']]] ∧
    (process_articles cw9 ca9).st.docs.map (fun d => d.2.1)
      = [("article_0.html".toList), ("article_1.html".toList)] ∧
    ("article_0.html".toList : Str) ≠ ("article_1.html".toList) :=
  ⟨by decide, by decide, by decide⟩

/-- C9 (amended): in a completed run the file name of the `i`-th document is
`"article_" ++ k ++ ".html"` where `k` is the number of distinct
sanitized-markup strings among the documents registered before it; a repeated
markup does not reuse the earlier name (the registry size does not grow, so
the index is repeated later instead), hence identical markups generally get
different names, and pairwise-distinct markups guarantee pairwise-distinct
file names. -/
theorem c9_doc_naming_amended (w : World) (args : Args)
    (h : (process_articles w args).err = none) :
    (∀ i d, (process_articles w args).st.docs.get? i = some d →
      d.2.1 = "article_".toList
        ++ pyStr (numDistinct
            (((process_articles w args).st.docs.map (fun x => x.2.2)).take i))
        ++ ".html".toList) ∧
    (((process_articles w args).st.docs.map (fun x => x.2.2)).Nodup →
      ((process_articles w args).st.docs.map (fun x => x.2.1)).Nodup) := by
  obtain ⟨a0, rest, st1, st2, hcol, hpa, hrun⟩ := process_articles_run h
  obtain ⟨-, -, -, c4, -, c6, -, -⟩ := collectArticles_spec (w := w) args.urls initPState
  rw [hcol] at c4 c6
  dsimp only at c4 c6
  have hinv1 : HtmlInv st1 := by
    refine ⟨?_, ?_, ?_⟩
    · rw [c4, c6]
      rfl
    · intro k
      rw [c4, c6]
      simp [initPState]
    · intro i d hd
      rw [c6] at hd
      simp [initPState] at hd
  have hinv2 : HtmlInv st2 := processArts_names hpa hinv1
  have hst : (process_articles w args).st = st2 := by rw [hrun]
  rw [hst]
  obtain ⟨-, -, rule⟩ := hinv2
  refine ⟨rule, ?_⟩
  intro hmk
  rw [List.nodup_iff_injective_get]
  rintro ⟨i, hi⟩ ⟨j, hj⟩ heq
  have hi' : i < st2.docs.length := by simpa using hi
  have hj' : j < st2.docs.length := by simpa using hj
  have hdi : st2.docs.get? i = some (st2.docs.get ⟨i, hi'⟩) := List.get?_eq_get hi'
  have hdj : st2.docs.get? j = some (st2.docs.get ⟨j, hj'⟩) := List.get?_eq_get hj'
  have r1 := rule i _ hdi
  have r2 := rule j _ hdj
  simp only [List.get_eq_getElem, List.getElem_map] at heq
  rw [List.get_eq_getElem] at r1 r2
  rw [r1, r2] at heq
  have hpy := List.append_cancel_left (List.append_cancel_right heq)
  have hk := pyStr_injective hpy
  have hmlen : (st2.docs.map (fun x => x.2.2)).length = st2.docs.length :=
    List.length_map _ _
  rw [numDistinct_take_of_nodup hmk (by omega),
    numDistinct_take_of_nodup hmk (by omega)] at hk
  exact Fin.ext hk

theorem c9_witness :
    (process_articles cw9 ca9).err = none ∧
    ((∀ i d, (process_articles cw9 ca9).st.docs.get? i = some d →
      d.2.1 = "article_".toList
        ++ pyStr (numDistinct
            (((process_articles cw9 ca9).st.docs.map (fun x => x.2.2)).take i))
        ++ ".html".toList) ∧
    (((process_articles cw9 ca9).st.docs.map (fun x => x.2.2)).Nodup →
      ((process_articles cw9 ca9).st.docs.map (fun x => x.2.1)).Nodup)) :=
  ⟨by decide, c9_doc_naming_amended cw9 ca9 (by decide)⟩

/-! Section: Fetch retry-loop lemmas (claim C7) -/

/-- Whether one `requests.get` attempt fails: a `RequestException`, or a
response on which `raise_for_status()` raises (4xx/5xx). -/
def attemptFails : AttemptResult → Bool
  | .exc => true
  | .resp st _ => decide (400 ≤ st ∧ st < 600)

theorem fetchGo_some {oracle : Nat → AttemptResult} :
    ∀ fuel base b, fetchGo oracle fuel base = some b →
      ∃ k, k < fuel ∧ (∀ j, j < k → attemptFails (oracle (base + j)) = true) ∧
        ∃ st, oracle (base + k) = .resp st b ∧ ¬(400 ≤ st ∧ st < 600) := by
  intro fuel
  induction fuel with
  | zero => intro base b h; simp [fetchGo] at h
  | succ fuel ih =>
    intro base b h
    simp only [fetchGo] at h
    split at h
    next horc =>
      obtain ⟨k, hk, hfail, st, hst, h4⟩ := ih (base + 1) b h
      refine ⟨k + 1, by omega, ?_, st, ?_, h4⟩
      · intro j hj
        cases j with
        | zero => simp [attemptFails, horc]
        | succ j =>
          have := hfail j (by omega)
          simpa [Nat.add_assoc, Nat.add_comm 1 j] using this
      · simpa [Nat.add_assoc, Nat.add_comm 1 k] using hst
    next st content horc =>
      by_cases h4 : 400 ≤ st ∧ st < 600
      · rw [if_pos h4] at h
        obtain ⟨k, hk, hfail, st', hst', h4'⟩ := ih (base + 1) b h
        refine ⟨k + 1, by omega, ?_, st', ?_, h4'⟩
        · intro j hj
          cases j with
          | zero => simp [attemptFails, horc, h4]
          | succ j =>
            have := hfail j (by omega)
            simpa [Nat.add_assoc, Nat.add_comm 1 j] using this
        · simpa [Nat.add_assoc, Nat.add_comm 1 k] using hst'
      · rw [if_neg h4] at h
        have hcb : content = b := Option.some.inj h
        subst hcb
        refine ⟨0, by omega, ?_, st, ?_, h4⟩
        · intro j hj
          exact absurd hj (by omega)
        · simpa using horc

theorem fetchGo_none {oracle : Nat → AttemptResult} :
    ∀ fuel base, (∀ j, j < fuel → attemptFails (oracle (base + j)) = true) →
      fetchGo oracle fuel base = none := by
  intro fuel
  induction fuel with
  | zero => intro base _; rfl
  | succ fuel ih =>
    intro base hfail
    have hrest : ∀ j, j < fuel → attemptFails (oracle (base + 1 + j)) = true := by
      intro j hj
      have := hfail (j + 1) (by omega)
      simpa [Nat.add_assoc, Nat.add_comm 1 j] using this
    have h0 := hfail 0 (by omega)
    rw [Nat.add_zero] at h0
    simp only [fetchGo]
    split
    next horc => exact ih (base + 1) hrest
    next st content horc =>
      rw [horc] at h0
      simp only [attemptFails, decide_eq_true_eq] at h0
      rw [if_pos h0]
      exact ih (base + 1) hrest

theorem fetchGo_congr {o1 o2 : Nat → AttemptResult} :
    ∀ fuel base, (∀ j, j < fuel → o1 (base + j) = o2 (base + j)) →
      fetchGo o1 fuel base = fetchGo o2 fuel base := by
  intro fuel
  induction fuel with
  | zero => intro base _; rfl
  | succ fuel ih =>
    intro base hagree
    have h0 := hagree 0 (by omega)
    rw [Nat.add_zero] at h0
    have hrest : ∀ j, j < fuel → o1 (base + 1 + j) = o2 (base + 1 + j) := by
      intro j hj
      have := hagree (j + 1) (by omega)
      simpa [Nat.add_assoc, Nat.add_comm 1 j] using this
    simp only [fetchGo, h0]
    split
    next horc => exact ih (base + 1) hrest
    next st content horc =>
      by_cases h4 : 400 ≤ st ∧ st < 600
      · rw [if_pos h4, if_pos h4]
        exact ih (base + 1) hrest
      · rw [if_neg h4, if_neg h4]

/-- C7 counterexample: the claim says an attempt succeeds only on a 2xx
response status, but `raise_for_status()` raises only for 4xx/5xx, so a first
attempt answered with status 304 returns its bytes even though 304 is not 2xx. -/
theorem c7_counterexample :
    fetch_image_data (fun _ => AttemptResult.resp 304 [9]) 3 5 = some [9] ∧
    ¬(200 ≤ 304 ∧ 304 < 300) := ⟨by decide, by decide⟩

/-- C7 (amended): the asset fetcher issues at most `retry_count` sequential
attempts (the result depends only on the outcomes of attempts `0..retry_count-1`),
each receiving the per-attempt timeout parameter; an attempt succeeds exactly
when the response status is outside 400-599 (the `raise_for_status` rule, not
"2xx only"), in which case the response bytes are returned; after all attempts
fail it returns `None` for that URL. -/
theorem c7_fetcher_amended (retry_count timeout_duration : Nat) :
    (∀ oracle b, fetch_image_data oracle retry_count timeout_duration = some b →
      ∃ k, k < retry_count ∧ (∀ j, j < k → attemptFails (oracle j) = true) ∧
        ∃ st, oracle k = .resp st b ∧ ¬(400 ≤ st ∧ st < 600)) ∧
    (∀ oracle, (∀ j, j < retry_count → attemptFails (oracle j) = true) →
      fetch_image_data oracle retry_count timeout_duration = none) ∧
    (∀ o1 o2, (∀ j, j < retry_count → o1 j = o2 j) →
      fetch_image_data o1 retry_count timeout_duration
        = fetch_image_data o2 retry_count timeout_duration) := by
  refine ⟨?_, ?_, ?_⟩
  · intro oracle b h
    have := fetchGo_some retry_count 0 b h
    simpa using this
  · intro oracle hfail
    exact fetchGo_none retry_count 0 (by simpa using hfail)
  · intro o1 o2 hagree
    exact fetchGo_congr retry_count 0 (by simpa using hagree)

/-- Oracle for the C7 witness: first attempt times out, second succeeds. -/
def c7Oracle : Nat → AttemptResult :=
  fun i => if i = 0 then .exc else .resp 200 [7]

theorem c7_witness :
    fetch_image_data c7Oracle 3 5 = some [7] ∧
    (∃ k, k < 3 ∧ (∀ j, j < k → attemptFails (c7Oracle j) = true) ∧
      ∃ st, c7Oracle k = .resp st [7] ∧ ¬(400 ≤ st ∧ st < 600)) :=
  ⟨by decide, (c7_fetcher_amended 3 5).1 c7Oracle [7] (by decide)⟩

/-! Section: URL resolver lemmas (claim C4) -/

theorem takeUntil_eq_self {p : Char → Bool} : ∀ {s : Str}, (∀ c ∈ s, p c = false) →
    takeUntil p s = (s, []) := by
  intro s
  induction s with
  | nil => intro _; rfl
  | cons a rest ih =>
    intro h
    have ha := h a (List.mem_cons_self a rest)
    simp only [takeUntil, ha, Bool.false_eq_true, if_false,
      ih (fun c hc => h c (List.mem_cons_of_mem a hc))]

theorem takeUntil_append_hit (p : Char → Bool) (d : Char) (hd : p d = true) :
    ∀ {a : Str} (b : Str), (∀ c ∈ a, p c = false) →
      takeUntil p (a ++ d :: b) = (a, d :: b) := by
  intro a
  induction a with
  | nil => intro b _; simp [takeUntil, hd]
  | cons x xs ih =>
    intro b h
    have hx := h x (List.mem_cons_self x xs)
    have ih' := ih b (fun c hc => h c (List.mem_cons_of_mem x hc))
    rw [List.cons_append]
    simp only [takeUntil, hx, Bool.false_eq_true, if_false, ih']

theorem schemeChar_ne_colon {c : Char} (h : schemeChar c = true) : (c == ':') = false := by
  cases hbe : c == ':' with
  | false => rfl
  | true =>
    have : c = ':' := by
      simpa using hbe
    subst this
    simp [schemeChar] at h

theorem splitScheme_of_wf {scheme : Str} (rest : Str)
    (h1 : scheme ≠ []) (h2 : headIsAlpha scheme = true) (h3 : scheme.all schemeChar = true)
    (h4 : scheme.map Char.toLower = scheme) :
    splitScheme (scheme ++ ':' :: rest) = (scheme, rest) := by
  have hs : ∀ c ∈ scheme, (fun c => c == ':') c = false := by
    intro c hc
    exact schemeChar_ne_colon (List.all_eq_true.mp h3 c hc)
  have hhit := takeUntil_append_hit (fun c => c == ':') ':' rfl rest hs
  simp [splitScheme, hhit, h1, h2, h3, h4]

/-- CPython's predicate for the end of the netloc. -/
def netlocStop (c : Char) : Bool := c == '/' || c == '?' || c == '#'

theorem urlparse_wf {scheme host path : Str}
    (hs1 : scheme ≠ []) (hs2 : headIsAlpha scheme = true)
    (hs3 : scheme.all schemeChar = true) (hs4 : scheme.map Char.toLower = scheme)
    (hh : ∀ c ∈ host, netlocStop c = false)
    (hp0 : path = [] ∨ ∃ t, path = '/' :: t)
    (hpq : ∀ c ∈ path, (c == '?') = false ∧ (c == '#') = false) :
    urlparse (scheme ++ "://".toList ++ host ++ path) = ⟨scheme, host, path, [], [], []⟩ := by
  have hsplit : scheme ++ "://".toList ++ host ++ path
      = scheme ++ ':' :: ('/' :: '/' :: (host ++ path)) := by
    simp [List.append_assoc]
  rw [hsplit]
  simp only [urlparse, splitScheme_of_wf _ hs1 hs2 hs3 hs4]
  have hpre : (['/', '/'] : Str).isPrefixOf ('/' :: '/' :: (host ++ path)) = true := by
    simp [List.isPrefixOf]
  rw [if_pos (by simpa using hpre)]
  have hnetloc : takeUntil netlocStop (host ++ path) = (host, path) := by
    rcases hp0 with rfl | ⟨t, rfl⟩
    · rw [List.append_nil]
      exact takeUntil_eq_self hh
    · exact takeUntil_append_hit netlocStop '/' rfl t hh
  have hpathq : takeUntil (fun x => x == '?') path = (path, []) :=
    takeUntil_eq_self (fun c hc => (hpq c hc).1)
  have hpathf : takeUntil (fun x => x == '#') path = (path, []) :=
    takeUntil_eq_self (fun c hc => (hpq c hc).2)
  simp only [List.drop_succ_cons, List.drop_zero]
  rw [show takeUntil (fun c => c == '/' || c == '?' || c == '#') (host ++ path)
        = (host, path) from hnetloc]
  simp only [splitAtChar, hpathf, hpathq, List.tail_nil]

/-- The claim's description of the base directory: the base URL's path with its
final `/`-segment dropped and a trailing separator ensured (stated with the
same split/join reading the code uses). -/
def specDirOfPath (path : Str) : Str :=
  (if (splitOnC '/' path).length > 1 then joinWith ['/'] (splitOnC '/' path).dropLast
   else path) ++ ['/']

theorem specDirOfPath_starts_slash {path : Str}
    (hp0 : path = [] ∨ ∃ t, path = '/' :: t) :
    ∃ t, specDirOfPath path = '/' :: t := by
  rcases hp0 with rfl | ⟨p, rfl⟩
  · exact ⟨[], rfl⟩
  · obtain ⟨hd, tl, h⟩ : ∃ hd tl, splitOnC '/' p = hd :: tl := by
      cases hsp : splitOnC '/' p with
      | nil => exact absurd hsp (splitOnC_ne_nil '/' p)
      | cons hd tl => exact ⟨hd, tl, rfl⟩
    have h2 : splitOnC '/' ('/' :: p) = [] :: hd :: tl := by
      simp [splitOnC, h]
    simp only [specDirOfPath, h2, List.length_cons]
    rw [if_pos (by omega), List.dropLast_cons₂]
    cases hdl : (hd :: tl).dropLast with
    | nil => exact ⟨[], by simp [joinWith]⟩
    | cons z zs => exact ⟨joinWith ['/'] (z :: zs) ++ ['/'], by simp [joinWith]⟩

theorem urlunparse_simple {scheme netloc path : Str}
    (hn : netloc ≠ []) (hs : scheme ≠ []) (hp : ∃ t, path = '/' :: t) :
    urlunparse ⟨scheme, netloc, path, [], [], []⟩
      = scheme ++ ':' :: '/' :: '/' :: (netloc ++ path) := by
  obtain ⟨t, rfl⟩ := hp
  simp [urlunparse, hn, hs]

theorem url_to_base_path_wf {scheme host path : Str}
    (hs1 : scheme ≠ []) (hs2 : headIsAlpha scheme = true)
    (hs3 : scheme.all schemeChar = true) (hs4 : scheme.map Char.toLower = scheme)
    (hh : ∀ c ∈ host, netlocStop c = false) (hhn : host ≠ [])
    (hp0 : path = [] ∨ ∃ t, path = '/' :: t)
    (hpq : ∀ c ∈ path, (c == '?') = false ∧ (c == '#') = false) :
    url_to_base_path (scheme ++ "://".toList ++ host ++ path)
      = scheme ++ "://".toList ++ host ++ specDirOfPath path := by
  simp only [url_to_base_path, urlparse_wf hs1 hs2 hs3 hs4 hh hp0 hpq]
  have : urlunparse ⟨scheme, host, specDirOfPath path, [], [], []⟩
      = scheme ++ ':' :: '/' :: '/' :: (host ++ specDirOfPath path) :=
    urlunparse_simple hhn hs1 (specDirOfPath_starts_slash hp0)
  simpa [specDirOfPath, List.append_assoc] using this

/-- C4 counterexample: at base URL `https://example.com/path/to/file.html`,
the relative reference `img.png` resolves to `...//img.png` (the call site
inserts a second separator after the directory), not to the claimed
concatenation `.../path/to/img.png`; and `ftp://other.com/a.png`, which
carries a scheme, is not returned unchanged because the code tests
`startswith("http")`, not scheme presence. -/
theorem c4_counterexample :
    resolveImgUrl ("img.png".toList) ("https://example.com/path/to/file.html".toList)
      = ("https://example.com/path/to//img.png".toList) ∧
    resolveImgUrl ("img.png".toList) ("https://example.com/path/to/file.html".toList)
      ≠ ("https://example.com/path/to/img.png".toList) ∧
    resolveImgUrl ("ftp://other.com/a.png".toList) ("https://example.com/path/to/file.html".toList)
      ≠ ("ftp://other.com/a.png".toList) :=
  ⟨by decide, by decide, by decide⟩

/-- C4 (amended): for every well-formed base URL `scheme://host path` and
reference `r` that does not start with `"http"`, the resolver preserves the
base's scheme and host and yields the base directory (final segment dropped,
trailing separator ensured) followed by one more `/` and then `r`; and every
reference starting with `"http"` (the code's scheme test) is returned
unchanged. -/
theorem c4_resolver_amended (scheme host path r : Str)
    (hs1 : scheme ≠ []) (hs2 : headIsAlpha scheme = true)
    (hs3 : scheme.all schemeChar = true) (hs4 : scheme.map Char.toLower = scheme)
    (hh : ∀ c ∈ host, netlocStop c = false) (hhn : host ≠ [])
    (hp0 : path = [] ∨ ∃ t, path = '/' :: t)
    (hpq : ∀ c ∈ path, (c == '?') = false ∧ (c == '#') = false)
    (hr : ("http".toList).isPrefixOf r = false) :
    resolveImgUrl r (scheme ++ "://".toList ++ host ++ path)
      = scheme ++ "://".toList ++ host ++ specDirOfPath path ++ '/' :: r ∧
    (∀ s b, ("http".toList).isPrefixOf s = true → resolveImgUrl s b = s) := by
  constructor
  · have hbase := url_to_base_path_wf hs1 hs2 hs3 hs4 hh hhn hp0 hpq
    unfold resolveImgUrl
    rw [if_neg (show ¬ ("http".toList.isPrefixOf r = true) by rw [hr]; simp), hbase]
  · intro s b hsb
    unfold resolveImgUrl
    rw [if_pos hsb]

theorem c4_witness :
    resolveImgUrl ("img.png".toList)
        (("https".toList) ++ "://".toList ++ ("example.com".toList) ++ ("/path/to/file.html".toList))
      = ("https".toList) ++ "://".toList ++ ("example.com".toList)
          ++ specDirOfPath ("/path/to/file.html".toList) ++ '/' :: ("img.png".toList) ∧
    (∀ s b, ("http".toList).isPrefixOf s = true → resolveImgUrl s b = s) :=
  c4_resolver_amended ("https".toList) ("example.com".toList) ("/path/to/file.html".toList)
    ("img.png".toList) (by decide) (by decide) (by decide) (by decide) (by decide) (by decide)
    (Or.inr ⟨"path/to/file.html".toList, by decide⟩) (by decide) (by decide)

theorem c10_witness :
    (ca10.cookies ≠ [] ∧ ∃ seg ∈ splitOnC ';' ca10.cookies, seg.count '=' ≠ 1) ∧
    ((process_articles cw10 ca10).err = some RunError.cookieValueError ∧
     (process_articles cw10 ca10).st.fetchTrace = [] ∧
     (process_articles cw10 ca10).st.pageTrace = []) :=
  ⟨⟨by decide, ⟨"ab".toList, by decide, by decide⟩⟩,
   c10_cookie_unpack_aborts cw10 ca10 (by decide) ⟨"ab".toList, by decide, by decide⟩⟩

end Artpub
